import Mathlib

/-!
Shallow embedding of the LibOS library (cross-platform OS info and keyboard
input, C++): the semantic-version value type from os/header-only/macros.h,
the key-combination value type and the derived click operations from
os/keyboard.hpp, and the three keyboard backends (X11, Win32, Carbon/IOKit),
together with theorems checking the specification's claims against them.

Strings are embedded as lists of characters, C++ `unsigned` arithmetic as
natural numbers reduced modulo 2^32 where the source can wrap, and the
platform facilities (X server keymap, `XKeysymToKeycode`, `GetAsyncKeyState`,
HID element values) as function parameters, so that every theorem quantifies
over all possible platform states.
-/

set_option maxHeartbeats 1000000
set_option maxRecDepth 16384

namespace LibOS

/-- Modulus of the C++ 32-bit `unsigned` type. -/
def uintMod : Nat := 4294967296

/-- Source struct `version` (os/header-only/macros.h): three `unsigned`
fields `major`, `minor`, `patch`, each defaulting to 0. -/
structure Version where
  major : Nat
  minor : Nat
  patch : Nat
deriving DecidableEq

/-- Source `version::operator==`: componentwise equality. -/
def Version.eqOp (v rhs : Version) : Bool :=
  v.major == rhs.major && v.minor == rhs.minor && v.patch == rhs.patch

/-- Source `version::operator<` exactly as written: three successive
`if (x < rhs.x) return true;` tests with no equality guards between them. -/
def Version.ltOp (v rhs : Version) : Bool :=
  if v.major < rhs.major then true
  else if v.minor < rhs.minor then true
  else if v.patch < rhs.patch then true
  else false

/-- Source `version::operator<=`: `(*this < rhs) || (*this == rhs)`. -/
def Version.leOp (v rhs : Version) : Bool := v.ltOp rhs || v.eqOp rhs

/-- Source `version::operator>`: `!(*this <= rhs)`. -/
def Version.gtOp (v rhs : Version) : Bool := !(v.leOp rhs)

/-- Source `version::operator>=`: `!(*this < rhs)`. -/
def Version.geOp (v rhs : Version) : Bool := !(v.ltOp rhs)

/-- Source `version::operator!=`: `!(*this == rhs)`. -/
def Version.neOp (v rhs : Version) : Bool := !(v.eqOp rhs)

/-- Spec-side definition: the standard lexicographic strict order on the
triple (major, minor, patch), which the spec says the comparison operators
implement. -/
def Version.lexLt (v w : Version) : Prop :=
  v.major < w.major ∨
    (v.major = w.major ∧
      (v.minor < w.minor ∨ (v.minor = w.minor ∧ v.patch < w.patch)))

instance (v w : Version) : Decidable (Version.lexLt v w) := by
  unfold Version.lexLt; infer_instance

/-- Guard of the parser's inner `while` loop: `'0' <= *it && *it <= '9'`. -/
def isDigitChar (c : Char) : Bool := 48 ≤ c.toNat && c.toNat ≤ 57

/-- Inner `while` loop of `version::version(std::string_view)`: consume a run
of decimal digits, accumulating `*field *= 10; *field += *it - '0'` with
`unsigned` wraparound, and return the accumulated value with the rest of the
input. -/
def readDigits : List Char → Nat → Nat × List Char
  | [], acc => (acc, [])
  | c :: cs, acc =>
    if isDigitChar c then
      readDigits cs ((acc * 10 % uintMod + (c.toNat - 48)) % uintMod)
    else (acc, c :: cs)

/-- The three fields in the order the parser's `fields` array lists them. -/
inductive VField
  | major
  | minor
  | patch

/-- Store a parsed value into the field the loop is currently pointing at. -/
def setVField : VField → Nat → Version → Version
  | .major, n, v => ⟨n, v.minor, v.patch⟩
  | .minor, n, v => ⟨v.major, n, v.patch⟩
  | .patch, n, v => ⟨v.major, v.minor, n⟩

/-- The `for (auto field : fields)` loop of `version::version(std::string_view)`:
read a digit run into the current field, `break` at end of input or at any
character other than `'.'`, otherwise skip the dot and move to the next
field. -/
def fieldsLoop : List VField → List Char → Version → Version
  | [], _, v => v
  | f :: fs, it, v =>
    match readDigits it 0 with
    | (value, it2) =>
      match it2 with
      | [] => setVField f value v
      | c :: rest =>
        if c = '.' then fieldsLoop fs rest (setVField f value v)
        else setVField f value v

/-- Source `version::version(std::string_view)`: all fields start at 0, then
the parsing loop runs over major, minor, patch. -/
def Version.fromChars (s : List Char) : Version :=
  fieldsLoop [.major, .minor, .patch] s ⟨0, 0, 0⟩

/-- Helper for the spec-side parser: succeeds exactly when the input starts
with a `'.'`, returning what follows it. -/
def dotThen : List Char → Option (List Char)
  | [] => none
  | c :: rest => if c = '.' then some rest else none

/-- Spec-side definition of the parser as claim C7 words it: a digit run for
`major`; if a `'.'` follows, a digit run for `minor`; if a `'.'` follows, a
digit run for `patch`; parsing stops at the first mismatch, keeping the
fields read so far and leaving later fields at their default 0. -/
def parseVersionSpec (s : List Char) : Version :=
  let r1 := readDigits s 0
  match dotThen r1.2 with
  | none => ⟨r1.1, 0, 0⟩
  | some s1 =>
    let r2 := readDigits s1 0
    match dotThen r2.2 with
    | none => ⟨r1.1, r2.1, 0⟩
    | some s2 => ⟨r1.1, r2.1, (readDigits s2 0).1⟩

/-- Character for the decimal digit `d`. -/
def digitChar (d : Nat) : Char := Char.ofNat (48 + d)

/-- Big-endian decimal digit values of `n`, as `std::to_string` renders them
(a single `0` digit for `n = 0`). -/
def decDigitsVals (n : Nat) : List Nat :=
  if n = 0 then [0] else (Nat.digits 10 n).reverse

/-- Decimal rendering of one `unsigned` value, as `std::to_string`. -/
def decChars (n : Nat) : List Char := (decDigitsVals n).map digitChar

/-- Source `version::str()`:
`std::to_string(major) + "." + std::to_string(minor) + "." + std::to_string(patch)`. -/
def Version.strChars (v : Version) : List Char :=
  decChars v.major ++ '.' :: decChars v.minor ++ '.' :: decChars v.patch

/-- One provider call as observed by a recording stub substituted for the
keyboard provider. -/
inductive KeyEvent
  | press (combo : List Nat)
  | release (combo : List Nat)
deriving DecidableEq

/-- Recording stub for `os::keyboard::press`: appends the call to the log. -/
def pressT (combo : List Nat) (t : List KeyEvent) : List KeyEvent :=
  t ++ [KeyEvent.press combo]

/-- Recording stub for `os::keyboard::release`: appends the call to the log. -/
def releaseT (combo : List Nat) (t : List KeyEvent) : List KeyEvent :=
  t ++ [KeyEvent.release combo]

/-- Source `os::keyboard::click` (os/keyboard.hpp): `press(combo); release(combo);`. -/
def clickT (combo : List Nat) (t : List KeyEvent) : List KeyEvent :=
  releaseT combo (pressT combo t)

/-- Modelled from the spec: `os::keyboard::double_click` does not appear in
the sources (only `os::mouse::double_click` does); spec section 4.3 defines it
as "`click(combo)` twice in immediate succession". -/
def double_clickT (combo : List Nat) (t : List KeyEvent) : List KeyEvent :=
  clickT combo (clickT combo t)

namespace Linux

/-- Source X11 `os::keyboard::is_pressed` (src/linux/keyboard.cpp): query the
256-bit keymap in one call (`keymap b` models byte `b` of `keys_return`),
translate each key of the combination with `XKeysymToKeycode` (`k2k`), and
test `keys_return[kc / 8] & (1 << (kc % 8))`; any clear bit fails the whole
combination. -/
def is_pressed (keymap : Nat → Nat) (k2k : Nat → Nat) (keys : List Nat) : Bool :=
  keys.all fun key => (keymap (k2k key / 8)).testBit (k2k key % 8)

/-- Source X11 `os::keyboard::press`: one
`XTestFakeKeyEvent(display, XKeysymToKeycode(display, key), true, 0)` per key
of the combination, in stored order; an injected native event is modelled as
the pair (keycode, is_press). -/
def press (k2k : Nat → Nat) (keys : List Nat) : List (Nat × Bool) :=
  keys.map fun key => (k2k key, true)

/-- Source X11 `os::keyboard::release`: same loop with `is_press = false`. -/
def release (k2k : Nat → Nat) (keys : List Nat) : List (Nat × Bool) :=
  keys.map fun key => (k2k key, false)

/-- Source X11 `os::keyboard::pressed_keys`: scan the 32 keymap bytes, and for
every set bit `n` of byte `m` append `static_cast<vk>(8*m + n)` to the
combination. -/
def pressed_keys (keymap : Nat → Nat) : List Nat :=
  (List.range 32).foldl
    (fun combo m =>
      (List.range 8).foldl
        (fun acc n => if (keymap m).testBit n then acc ++ [8 * m + n] else acc)
        combo)
    []

end Linux

namespace Windows

/-- Source Win32 `os::keyboard::is_pressed`: for each key, read
`GetAsyncKeyState` (`state`) and test the most significant bit of the 16-bit
value (bit 15). -/
def is_pressed (state : Nat → Nat) (keys : List Nat) : Bool :=
  keys.all fun key => (state key).testBit 15

/-- Source Win32 `os::keyboard::press`: one keyboard INPUT record per key of
the combination, keyup flag clear, submitted as one `SendInput` batch; a
record is modelled as (wVk, keyup-flag). -/
def press (keys : List Nat) : List (Nat × Bool) :=
  keys.map fun key => (key, false)

/-- Source Win32 `os::keyboard::release`: same records with the
`KEYEVENTF_KEYUP` flag set. -/
def release (keys : List Nat) : List (Nat × Bool) :=
  keys.map fun key => (key, true)

end Windows

namespace MacOS

/-- CoreGraphics event flag mask (CGEventTypes.h value) for shift. -/
def kCGEventFlagMaskShift : Nat := 0x20000

/-- CoreGraphics event flag mask for control. -/
def kCGEventFlagMaskControl : Nat := 0x40000

/-- CoreGraphics event flag mask for option / alternate. -/
def kCGEventFlagMaskAlternate : Nat := 0x80000

/-- CoreGraphics event flag mask for command. -/
def kCGEventFlagMaskCommand : Nat := 0x100000

/-- CoreGraphics event flag mask for the secondary Fn key. -/
def kCGEventFlagMaskSecondaryFn : Nat := 0x800000

/-- macOS `vk::Function` (Carbon `kVK_Function`). -/
def vkFunction : Nat := 0x3F

/-- macOS `vk::Shift_L` (`kVK_Shift`). -/
def vkShiftL : Nat := 0x38

/-- macOS `vk::Shift_R` (`kVK_RightShift`). -/
def vkShiftR : Nat := 0x3C

/-- macOS `vk::Option_L` (`kVK_Option`). -/
def vkOptionL : Nat := 0x3A

/-- macOS `vk::Option_R` (`kVK_RightOption`). -/
def vkOptionR : Nat := 0x3D

/-- macOS `vk::Command_L` (`kVK_Command`). -/
def vkCommandL : Nat := 0x37

/-- macOS `vk::Command_R` (`kVK_RightCommand`). -/
def vkCommandR : Nat := 0x36

/-- macOS `vk::Control_L` (`kVK_Control`). -/
def vkControlL : Nat := 0x3B

/-- macOS `vk::Control_R` (`kVK_RightControl`). -/
def vkControlR : Nat := 0x3E

/-- The (modifier key, flag mask) pairs in the exact order
`os::detail::extract_modifiers` tries them. -/
def modifierMasks : List (Nat × Nat) :=
  [(vkFunction, kCGEventFlagMaskSecondaryFn),
   (vkShiftL, kCGEventFlagMaskShift),
   (vkShiftR, kCGEventFlagMaskShift),
   (vkOptionL, kCGEventFlagMaskAlternate),
   (vkOptionR, kCGEventFlagMaskAlternate),
   (vkCommandL, kCGEventFlagMaskCommand),
   (vkCommandR, kCGEventFlagMaskCommand),
   (vkControlL, kCGEventFlagMaskControl),
   (vkControlR, kCGEventFlagMaskControl)]

/-- The modifier virtual keys of the Carbon/IOKit backend. -/
def modifierKeys : List Nat := modifierMasks.map Prod.fst

/-- The `try_extract` lambda inside `os::detail::extract_modifiers`: if the
modifier is found in the combination's key set, OR its mask into the flags
and erase it from the set. The combination of this revision stores its keys
in an `std::unordered_set`, modelled as a `Finset`. -/
def try_extract (st : Nat × Finset Nat) (m mask : Nat) : Nat × Finset Nat :=
  if m ∈ st.2 then (st.1 ||| mask, st.2.erase m) else st

/-- One fold step over the (modifier, mask) list. -/
def extractStep (st : Nat × Finset Nat) (p : Nat × Nat) : Nat × Finset Nat :=
  try_extract st p.1 p.2

/-- Source `os::detail::extract_modifiers` (src/macos/keyboard.cpp): starting
from flags 0, the nine `try_extract` calls in source order (Function, then
left/right Shift, Option, Command, Control). -/
def extract_modifiers (combo : Finset Nat) : Nat × Finset Nat :=
  modifierMasks.foldl extractStep (0, combo)

/-- Source `os::detail::send_key_events`: copy the combination, extract the
modifiers into the flags, then create, flag and post one keyboard event per
remaining key; a posted native event is modelled as (keycode, flags, is_down). -/
def send_key_events (combo : Finset Nat) (is_down : Bool) : Finset (Nat × Nat × Bool) :=
  ((extract_modifiers combo).2).image fun key => (key, (extract_modifiers combo).1, is_down)

/-- Source `HIDInputManager::is_pressed`: `std::all_of` over the combination's
keys; a key counts as pressed when its HID element's live integer value reads
1 (`elemValue key` models `IOHIDValueGetIntegerValue` for the key's element). -/
def is_pressed (elemValue : Nat → Nat) (combo : Finset Nat) : Bool :=
  decide (∀ key ∈ combo, elemValue key = 1)

end MacOS

/-- Source `os::keyboard::combination::combination(vk)`: a one-key
combination (vector revision). -/
def combinationOfKey (k : Nat) : List Nat := [k]

/-- Source `operator+(vk lhs, vk rhs)` (vector revision of os/keyboard.hpp):
`combination{{lhs, rhs}}`, an ordered list that keeps duplicates. -/
def vkPlusVk (lhs rhs : Nat) : List Nat := [lhs, rhs]

/-- Source `operator+(vk lhs, vk rhs)` in the `unordered_set` revision of the
combination type: the set `{lhs, rhs}`. -/
def vkPlusVkSet (lhs rhs : Nat) : Finset Nat := {lhs, rhs}

/-! Helper lemmas. -/

lemma fieldsLoop_eq_parseVersionSpec (s : List Char) :
    fieldsLoop [.major, .minor, .patch] s ⟨0, 0, 0⟩ = parseVersionSpec s := by
  unfold parseVersionSpec
  rcases h1 : readDigits s 0 with ⟨maj, r1⟩
  simp only [fieldsLoop, h1]
  cases r1 with
  | nil => simp [dotThen, setVField]
  | cons c rest =>
    by_cases hc : c = '.'
    · subst hc
      simp only [dotThen, if_pos rfl]
      rcases h2 : readDigits rest 0 with ⟨mino, r2⟩
      simp only [fieldsLoop, h2]
      cases r2 with
      | nil => simp [dotThen, setVField, h2]
      | cons c2 rest2 =>
        by_cases hc2 : c2 = '.'
        · subst hc2
          simp only [dotThen, if_pos rfl]
          rcases h3 : readDigits rest2 0 with ⟨pat, r3⟩
          simp only [fieldsLoop, h3]
          cases r3 with
          | nil => simp [dotThen, setVField, h2, h3]
          | cons c3 rest3 =>
            by_cases hc3 : c3 = '.'
            · subst hc3; simp [fieldsLoop, dotThen, setVField, h2, h3]
            · simp [dotThen, setVField, hc3, h2, h3]
        · simp [dotThen, setVField, hc2, h2]
    · simp [dotThen, hc, setVField]

/-- Input starting with a non-digit (or empty): where a digit run stops. -/
def headNotDigit : List Char → Prop
  | [] => True
  | c :: _ => isDigitChar c = false

/-- One accumulation step of the parser, with `unsigned` wraparound. -/
def foldStep (a d : Nat) : Nat := (a * 10 % uintMod + d) % uintMod

/-- One accumulation step without wraparound. -/
def pureStep (a d : Nat) : Nat := a * 10 + d

lemma digitChar_toNat (d : Nat) (hd : d < 10) : (digitChar d).toNat = 48 + d := by
  interval_cases d <;> decide

lemma isDigitChar_digitChar (d : Nat) (hd : d < 10) : isDigitChar (digitChar d) = true := by
  interval_cases d <;> decide

lemma readDigits_map_append (rest : List Char) (hrest : headNotDigit rest) :
    ∀ (ds : List Nat), (∀ d ∈ ds, d < 10) → ∀ acc : Nat,
      readDigits (ds.map digitChar ++ rest) acc = (ds.foldl foldStep acc, rest) := by
  intro ds
  induction ds with
  | nil =>
    intro _ acc
    cases rest with
    | nil => rfl
    | cons c cs =>
      unfold headNotDigit at hrest
      simp [readDigits, hrest]
  | cons d ds ih =>
    intro hlt acc
    have hd : d < 10 := hlt d (List.mem_cons_self d ds)
    simp only [List.map_cons, List.cons_append, readDigits,
      isDigitChar_digitChar d hd, if_pos]
    rw [digitChar_toNat d hd]
    have harg : 48 + d - 48 = d := by omega
    rw [harg]
    exact ih (fun x hx => hlt x (List.mem_cons_of_mem d hx)) _

lemma foldl_foldStep_mod (ds : List Nat) (hds : ∀ d ∈ ds, d < 10) :
    ∀ a : Nat, ds.foldl foldStep (a % uintMod) = ds.foldl pureStep a % uintMod := by
  induction ds with
  | nil => intro a; rfl
  | cons d ds ih =>
    intro a
    have hd : d < 10 := hds d (List.mem_cons_self d ds)
    have hstep : foldStep (a % uintMod) d = pureStep a d % uintMod := by
      unfold foldStep pureStep uintMod
      omega
    simp only [List.foldl_cons, hstep]
    exact ih (fun x hx => hds x (List.mem_cons_of_mem d hx)) (pureStep a d)

lemma foldr_digits_ofDigits (L : List Nat) :
    L.foldr (fun d a => a * 10 + d) 0 = Nat.ofDigits 10 L := by
  induction L with
  | nil => simp [Nat.ofDigits]
  | cons d L ih =>
    rw [List.foldr_cons, ih, Nat.ofDigits_cons]
    ring

lemma decDigitsVals_lt (n : Nat) : ∀ d ∈ decDigitsVals n, d < 10 := by
  intro d hd
  unfold decDigitsVals at hd
  by_cases hn : n = 0
  · simp [hn] at hd; omega
  · rw [if_neg hn, List.mem_reverse] at hd
    exact Nat.digits_lt_base (by norm_num) hd

lemma foldl_pureStep_decDigitsVals (n : Nat) :
    (decDigitsVals n).foldl pureStep 0 = n := by
  unfold decDigitsVals
  by_cases hn : n = 0
  · simp [hn, pureStep]
  · rw [if_neg hn, List.foldl_reverse]
    have hflip : (fun d a => pureStep a d) = fun d a => a * 10 + d := by
      funext d a; rfl
    rw [hflip, foldr_digits_ofDigits, Nat.ofDigits_digits]

lemma readDigits_decChars (n : Nat) (hn : n < uintMod) (rest : List Char)
    (hrest : headNotDigit rest) :
    readDigits (decChars n ++ rest) 0 = (n, rest) := by
  unfold decChars
  rw [readDigits_map_append rest hrest (decDigitsVals n) (decDigitsVals_lt n) 0]
  have h0 : (0 : Nat) = 0 % uintMod := rfl
  rw [h0, foldl_foldStep_mod (decDigitsVals n) (decDigitsVals_lt n) 0,
    foldl_pureStep_decDigitsVals, Nat.mod_eq_of_lt hn]

lemma dot_not_digit (l : List Char) : headNotDigit ('.' :: l) := by
  show isDigitChar '.' = false
  decide

lemma extract_snd_eq_filter (ps : List (Nat × Nat)) :
    ∀ (f : Nat) (s : Finset Nat),
      (ps.foldl MacOS.extractStep (f, s)).2 = s.filter (fun x => x ∉ ps.map Prod.fst) := by
  induction ps with
  | nil => intro f s; simp
  | cons p ps ih =>
    intro f s
    have hstep :
        (List.foldl MacOS.extractStep (f, s) (p :: ps)).2
          = (List.foldl MacOS.extractStep
              (if p.1 ∈ s then f ||| p.2 else f, s.erase p.1) ps).2 := by
      simp only [List.foldl_cons, MacOS.extractStep, MacOS.try_extract]
      by_cases h : p.1 ∈ s
      · simp [h]
      · simp [h, Finset.erase_eq_of_not_mem h]
    rw [hstep, ih]
    ext x
    simp only [Finset.mem_filter, Finset.mem_erase, List.map_cons, List.mem_cons]
    constructor
    · rintro ⟨⟨hne, hx⟩, hnp⟩
      exact ⟨hx, by push_neg; exact ⟨hne, fun h => hnp h⟩⟩
    · rintro ⟨hx, hnp⟩
      push_neg at hnp
      exact ⟨⟨hnp.1, hx⟩, fun h => hnp.2 h⟩

lemma extract_fst_testBit_mono (ps : List (Nat × Nat)) :
    ∀ (st : Nat × Finset Nat) (i : Nat), st.1.testBit i = true →
      ((ps.foldl MacOS.extractStep st).1).testBit i = true := by
  induction ps with
  | nil => intro st i h; exact h
  | cons p ps ih =>
    intro st i h
    rw [List.foldl_cons]
    unfold MacOS.extractStep MacOS.try_extract
    by_cases hm : p.1 ∈ st.2
    · rw [if_pos hm]
      exact ih _ i (by simp [Nat.testBit_or, h])
    · rw [if_neg hm]
      exact ih _ i h

lemma extract_fst_testBit_of_mem (ps : List (Nat × Nat)) :
    ∀ (f : Nat) (s : Finset Nat) (m mask : Nat),
      (ps.map Prod.fst).Nodup → (m, mask) ∈ ps → m ∈ s →
      ∀ i, mask.testBit i = true →
        ((ps.foldl MacOS.extractStep (f, s)).1).testBit i = true := by
  induction ps with
  | nil => intro f s m mask _ hmem; cases hmem
  | cons p ps ih =>
    intro f s m mask hnd hmem hin i hbit
    rw [List.map_cons, List.nodup_cons] at hnd
    rw [List.foldl_cons]
    unfold MacOS.extractStep MacOS.try_extract
    rcases List.mem_cons.mp hmem with heq | htail
    · have hp1 : p.1 = m := by rw [← heq]
      have hp2 : p.2 = mask := by rw [← heq]
      rw [hp1, if_pos hin]
      exact extract_fst_testBit_mono ps _ i (by simp [hp2, Nat.testBit_or, hbit])
    · have hne : p.1 ≠ m := by
        intro hcontra
        exact hnd.1 (hcontra ▸ List.mem_map_of_mem Prod.fst htail)
      by_cases hm : p.1 ∈ s
      · rw [if_pos hm]
        exact ih _ _ m mask hnd.2 htail (Finset.mem_erase.mpr ⟨(Ne.symm hne), hin⟩) i hbit
      · rw [if_neg hm]
        exact ih _ _ m mask hnd.2 htail hin i hbit

lemma extract_modifiers_snd (c : Finset Nat) :
    (MacOS.extract_modifiers c).2 = c.filter (fun x => x ∉ MacOS.modifierKeys) :=
  extract_snd_eq_filter MacOS.modifierMasks 0 c

lemma send_key_events_keys (c : Finset Nat) (d : Bool) :
    (MacOS.send_key_events c d).image (fun e => e.1)
      = c.filter (fun x => x ∉ MacOS.modifierKeys) := by
  unfold MacOS.send_key_events
  rw [Finset.image_image]
  have himg : ((fun e : Nat × Nat × Bool => e.1) ∘
      fun key => (key, (MacOS.extract_modifiers c).1, d)) = id := by
    funext key; rfl
  rw [himg, Finset.image_id, extract_modifiers_snd]

lemma send_key_events_empty (d : Bool) : MacOS.send_key_events ∅ d = ∅ := by
  unfold MacOS.send_key_events
  rw [show (MacOS.extract_modifiers ∅).2 = ∅ by rw [extract_modifiers_snd]; simp]
  exact Finset.image_empty _

lemma extract_modifiers_fst_testBit (c : Finset Nat) (m mask : Nat)
    (hm : (m, mask) ∈ MacOS.modifierMasks) (hmc : m ∈ c) :
    ∀ i, mask.testBit i = true →
      ((MacOS.extract_modifiers c).1).testBit i = true :=
  fun i hbit =>
    extract_fst_testBit_of_mem MacOS.modifierMasks 0 c m mask
      (by decide) hm hmc i hbit

attribute [irreducible] MacOS.extract_modifiers

lemma inner_fold_bound (km : Nat → Nat) (mb : Nat) (p : Nat → Prop) :
    ∀ (l : List Nat) (init : List Nat), (∀ x ∈ init, p x) →
      (∀ n ∈ l, p (8 * mb + n)) →
      ∀ x ∈ l.foldl
        (fun acc n => if (km mb).testBit n then acc ++ [8 * mb + n] else acc) init,
        p x := by
  intro l
  induction l with
  | nil => exact fun init hi _ x hx => hi x hx
  | cons n l ih =>
    intro init hi hl x hx
    rw [List.foldl_cons] at hx
    refine ih _ ?_ (fun n2 hn2 => hl n2 (List.mem_cons_of_mem _ hn2)) x hx
    intro y hy
    by_cases hb : (km mb).testBit n
    · rw [if_pos hb] at hy
      rcases List.mem_append.mp hy with h | h
      · exact hi y h
      · rw [List.mem_singleton] at h
        exact h ▸ hl n (List.mem_cons_self n l)
    · rw [if_neg hb] at hy
      exact hi y hy

lemma pressed_keys_bound (km : Nat → Nat) :
    ∀ x ∈ Linux.pressed_keys km, x < 256 := by
  have gen : ∀ (L : List Nat) (init : List Nat), (∀ x ∈ init, x < 256) →
      (∀ mb ∈ L, mb < 32) →
      ∀ x ∈ L.foldl
        (fun combo mb =>
          (List.range 8).foldl
            (fun acc n => if (km mb).testBit n then acc ++ [8 * mb + n] else acc)
            combo)
        init, x < 256 := by
    intro L
    induction L with
    | nil => exact fun init hi _ x hx => hi x hx
    | cons mb L ih =>
      intro init hi hL x hx
      rw [List.foldl_cons] at hx
      refine ih _ ?_ (fun y hy => hL y (List.mem_cons_of_mem _ hy)) x hx
      refine inner_fold_bound km mb (fun z => z < 256) (List.range 8) init hi ?_
      intro n hn
      have h8 : n < 8 := List.mem_range.mp hn
      have h32 : mb < 32 := hL mb (List.mem_cons_self mb L)
      omega
  intro x hx
  unfold Linux.pressed_keys at hx
  exact gen (List.range 32) [] (by simp) (fun mb hmb => List.mem_range.mp hmb) x hx

lemma dotThen_dot (l : List Char) : dotThen ('.' :: l) = some l := by
  simp [dotThen]

lemma parseVersionSpec_eq (s s1 s2 : List Char) (a b c : Nat)
    (h1 : readDigits s 0 = (a, '.' :: s1))
    (h2 : readDigits s1 0 = (b, '.' :: s2))
    (h3 : readDigits s2 0 = (c, [])) :
    parseVersionSpec s = ⟨a, b, c⟩ := by
  unfold parseVersionSpec
  simp [h1, h2, h3, dotThen]

/-! Theorems for the claims. -/

/-- Claim C1. The spec says the version comparison operators implement the
standard lexicographic total order on (major, minor, patch). The source
`operator<` compares the lower fields without first requiring equality of the
higher ones, so the claim fails: at v1 = (2,0,0) and v2 = (1,5,0) the code
returns `v1 < v2 == true` although v1 lexicographically follows v2, and it
also returns `v2 < v1 == true`, so the relation is not even asymmetric. The
struct documents itself as semantic versioning, whose precedence is
lexicographic, so this is a bug in the code. -/
theorem version_lt_violates_lexicographic_order :
    Version.ltOp ⟨2, 0, 0⟩ ⟨1, 5, 0⟩ = true ∧
    ¬ Version.lexLt ⟨2, 0, 0⟩ ⟨1, 5, 0⟩ ∧
    Version.ltOp ⟨1, 5, 0⟩ ⟨2, 0, 0⟩ = true ∧
    Version.lexLt ⟨1, 5, 0⟩ ⟨2, 0, 0⟩ := by decide

/-- Claim C2. `double_click(c)` (modelled from the spec, since only the mouse
variant appears in the sources) is observably `click(c)` twice: a recording
stub observes exactly press, release, press, release of `c`, appended to any
prior log. -/
theorem double_click_is_two_clicks :
    ∀ (combo : List Nat) (t : List KeyEvent),
      double_clickT combo t = clickT combo (clickT combo t) ∧
      double_clickT combo t
        = t ++ [KeyEvent.press combo, KeyEvent.release combo,
                KeyEvent.press combo, KeyEvent.release combo] := by
  intro combo t
  exact ⟨rfl, by simp [double_clickT, clickT, pressT, releaseT]⟩

/-- Claim C3. For the empty combination on each backend: `is_pressed({})` is
vacuously true, `press({})` and `release({})` inject no native event, and all
operations are total functions of the modelled platform state (no error
path). -/
theorem empty_combination_is_noop :
    (∀ keymap k2k : Nat → Nat, Linux.is_pressed keymap k2k [] = true) ∧
    (∀ k2k : Nat → Nat, Linux.press k2k [] = [] ∧ Linux.release k2k [] = []) ∧
    (∀ state : Nat → Nat, Windows.is_pressed state [] = true) ∧
    (Windows.press [] = [] ∧ Windows.release [] = []) ∧
    (∀ elemValue : Nat → Nat, MacOS.is_pressed elemValue ∅ = true) ∧
    (MacOS.send_key_events ∅ true = ∅ ∧ MacOS.send_key_events ∅ false = ∅) := by
  refine ⟨fun _ _ => rfl, fun _ => ⟨rfl, rfl⟩, fun _ => rfl, ⟨rfl, rfl⟩, ?_,
    ⟨send_key_events_empty true, send_key_events_empty false⟩⟩
  intro elemValue
  simp [MacOS.is_pressed]

/-- Claim C4. `os::keyboard::click(c)` is `press(c)` immediately followed by
`release(c)`: a recording stub observes exactly those two calls in that
order, with no other effect on the log. -/
theorem click_is_press_then_release :
    ∀ (combo : List Nat) (t : List KeyEvent),
      clickT combo t = t ++ [KeyEvent.press combo, KeyEvent.release combo] := by
  intro combo t
  simp [clickT, pressT, releaseT]

/-- Claim C5. The combination `k + k` tests as pressed exactly when `{k}`
does, in every keyboard state: on the vector revision the X11 `is_pressed`
conjunction over `[k, k]` equals the one over `[k]`, and on the
`unordered_set` revision `k + k` is literally the same set as `{k}`, so the
Carbon/IOKit `is_pressed` agrees as well. -/
theorem duplicate_key_combination_idempotent :
    (∀ (keymap k2k : Nat → Nat) (k : Nat),
        Linux.is_pressed keymap k2k (vkPlusVk k k)
          = Linux.is_pressed keymap k2k (combinationOfKey k)) ∧
    (∀ k : Nat, vkPlusVkSet k k = ({k} : Finset Nat)) ∧
    (∀ (elemValue : Nat → Nat) (k : Nat),
        MacOS.is_pressed elemValue (vkPlusVkSet k k)
          = MacOS.is_pressed elemValue {k}) := by
  refine ⟨?_, ?_, ?_⟩
  · intro keymap k2k k
    simp [Linux.is_pressed, vkPlusVk, combinationOfKey]
  · intro k
    exact Finset.insert_eq_self.mpr (Finset.mem_singleton_self k)
  · intro elemValue k
    unfold vkPlusVkSet
    rw [Finset.insert_eq_self.mpr (Finset.mem_singleton_self k)]

/-- Claim C6. On the Carbon/IOKit backend, for a combination holding a
modifier `m` (with flag mask `mask`) and a non-modifier key `k`: `press`
posts events exactly for the non-modifier keys of the combination (so in
particular one for `k` and none for any modifier), every posted event carries
the modifier's flag bits in its flags, and the left and right variants of
each modifier map to the same flag mask. -/
theorem macos_press_folds_modifiers_into_flags
    (c : Finset Nat) (m mask k : Nat)
    (hm : (m, mask) ∈ MacOS.modifierMasks) (hmc : m ∈ c)
    (hk : k ∉ MacOS.modifierKeys) (hkc : k ∈ c) :
    ((MacOS.send_key_events c true).image (fun e => e.1)
        = c.filter (fun x => x ∉ MacOS.modifierKeys)) ∧
    (∀ e ∈ MacOS.send_key_events c true, e.1 ∉ MacOS.modifierKeys) ∧
    ((k, (MacOS.extract_modifiers c).1, true) ∈ MacOS.send_key_events c true) ∧
    (∀ e ∈ MacOS.send_key_events c true, ∀ i, mask.testBit i = true →
        (e.2.1).testBit i = true) ∧
    (MacOS.modifierMasks.lookup MacOS.vkShiftL
        = MacOS.modifierMasks.lookup MacOS.vkShiftR ∧
     MacOS.modifierMasks.lookup MacOS.vkOptionL
        = MacOS.modifierMasks.lookup MacOS.vkOptionR ∧
     MacOS.modifierMasks.lookup MacOS.vkCommandL
        = MacOS.modifierMasks.lookup MacOS.vkCommandR ∧
     MacOS.modifierMasks.lookup MacOS.vkControlL
        = MacOS.modifierMasks.lookup MacOS.vkControlR) := by
  refine ⟨send_key_events_keys c true, ?_, ?_, ?_, by decide⟩
  · intro e he
    unfold MacOS.send_key_events at he
    rcases Finset.mem_image.mp he with ⟨key, hkey, hkeq⟩
    rw [extract_modifiers_snd] at hkey
    rw [← hkeq]
    exact (Finset.mem_filter.mp hkey).2
  · unfold MacOS.send_key_events
    refine Finset.mem_image.mpr ⟨k, ?_, rfl⟩
    rw [extract_modifiers_snd]
    exact Finset.mem_filter.mpr ⟨hkc, hk⟩
  · intro e he i hbit
    unfold MacOS.send_key_events at he
    rcases Finset.mem_image.mp he with ⟨key, hkey, hkeq⟩
    have hflags : e.2.1 = (MacOS.extract_modifiers c).1 := by rw [← hkeq]
    rw [hflags]
    exact extract_modifiers_fst_testBit c m mask hm hmc i hbit

/-- Witness for C6 at the concrete combination {A, Shift_L} = {0x00, 0x38}
with modifier Shift_L (mask 0x20000) and non-modifier key A. -/
theorem macos_press_folds_modifiers_into_flags_witness :
    ((MacOS.send_key_events ({0, 56} : Finset Nat) true).image (fun e => e.1)
        = ({0, 56} : Finset Nat).filter (fun x => x ∉ MacOS.modifierKeys)) ∧
    (∀ e ∈ MacOS.send_key_events ({0, 56} : Finset Nat) true,
        e.1 ∉ MacOS.modifierKeys) ∧
    ((0, (MacOS.extract_modifiers ({0, 56} : Finset Nat)).1, true)
        ∈ MacOS.send_key_events ({0, 56} : Finset Nat) true) ∧
    (∀ e ∈ MacOS.send_key_events ({0, 56} : Finset Nat) true,
        ∀ i, (131072 : Nat).testBit i = true → (e.2.1).testBit i = true) ∧
    (MacOS.modifierMasks.lookup MacOS.vkShiftL
        = MacOS.modifierMasks.lookup MacOS.vkShiftR ∧
     MacOS.modifierMasks.lookup MacOS.vkOptionL
        = MacOS.modifierMasks.lookup MacOS.vkOptionR ∧
     MacOS.modifierMasks.lookup MacOS.vkCommandL
        = MacOS.modifierMasks.lookup MacOS.vkCommandR ∧
     MacOS.modifierMasks.lookup MacOS.vkControlL
        = MacOS.modifierMasks.lookup MacOS.vkControlR) :=
  macos_press_folds_modifiers_into_flags {0, 56} 56 131072 0
    (by decide) (by decide) (by decide) (by decide)

/-- Claim C7. The version parser is total (a plain Lean function, no error
path), it agrees everywhere with the spec's description (digit runs for
major, minor, patch separated by `'.'`, stopping at the first mismatch while
keeping the fields parsed so far and leaving later fields 0), and the spec's
two examples evaluate as stated: "1.2.3-beta" parses to (1,2,3) and "1.x"
parses to (1,0,0). -/
theorem version_parse_is_lenient :
    (∀ s : List Char, Version.fromChars s = parseVersionSpec s) ∧
    Version.fromChars ['1', '.', '2', '.', '3', '-', 'b', 'e', 't', 'a']
      = ⟨1, 2, 3⟩ ∧
    Version.fromChars ['1', '.', 'x'] = ⟨1, 0, 0⟩ :=
  ⟨fun s => fieldsLoop_eq_parseVersionSpec s, by decide, by decide⟩

/-- Claim C8. Rendering a version built from three `unsigned` values through
`str()` gives the decimal dotted string, and parsing that string back yields
an equal version (both as Lean equality and under the source `operator==`). -/
theorem version_string_roundtrip (a b c : Nat)
    (ha : a < uintMod) (hb : b < uintMod) (hc : c < uintMod) :
    Version.strChars ⟨a, b, c⟩
      = decChars a ++ '.' :: (decChars b ++ '.' :: decChars c) ∧
    Version.fromChars (Version.strChars ⟨a, b, c⟩) = ⟨a, b, c⟩ ∧
    Version.eqOp (Version.fromChars (Version.strChars ⟨a, b, c⟩)) ⟨a, b, c⟩
      = true := by
  have hstr : Version.strChars ⟨a, b, c⟩
      = decChars a ++ '.' :: (decChars b ++ '.' :: decChars c) := by
    simp [Version.strChars]
  have h1 : readDigits (Version.strChars ⟨a, b, c⟩) 0
      = (a, '.' :: (decChars b ++ '.' :: decChars c)) := by
    rw [hstr]
    exact readDigits_decChars a ha ('.' :: (decChars b ++ '.' :: decChars c))
      (dot_not_digit _)
  have h2 : readDigits (decChars b ++ '.' :: decChars c) 0
      = (b, '.' :: decChars c) :=
    readDigits_decChars b hb ('.' :: decChars c) (dot_not_digit _)
  have h3 : readDigits (decChars c) 0 = (c, []) := by
    have h := readDigits_decChars c hc [] trivial
    rwa [List.append_nil] at h
  have hmain : Version.fromChars (Version.strChars ⟨a, b, c⟩) = ⟨a, b, c⟩ := by
    rw [show Version.fromChars (Version.strChars ⟨a, b, c⟩)
        = parseVersionSpec (Version.strChars ⟨a, b, c⟩)
      from fieldsLoop_eq_parseVersionSpec _]
    exact parseVersionSpec_eq _ _ _ a b c h1 h2 h3
  exact ⟨hstr, hmain, by rw [hmain]; simp [Version.eqOp]⟩

/-- Witness for C8 at the concrete version (1, 2, 3). -/
theorem version_string_roundtrip_witness :
    Version.strChars ⟨1, 2, 3⟩
      = decChars 1 ++ '.' :: (decChars 2 ++ '.' :: decChars 3) ∧
    Version.fromChars (Version.strChars ⟨1, 2, 3⟩) = ⟨1, 2, 3⟩ ∧
    Version.eqOp (Version.fromChars (Version.strChars ⟨1, 2, 3⟩)) ⟨1, 2, 3⟩
      = true :=
  version_string_roundtrip 1 2 3 (by decide) (by decide) (by decide)

/-- Claim C9. Every key the X11 `pressed_keys` can return is a raw native
keycode index `8*m + n` with `m < 32`, `n < 8`, hence below 256; in
particular the result never contains the keysym-valued constants Shift_L
(0xFFE1), Return (0xFF0D) or F1 (0xFFBE). -/
theorem x11_pressed_keys_are_raw_keycodes (keymap : Nat → Nat) (k : Nat)
    (hk : k ∈ Linux.pressed_keys keymap) :
    k < 256 ∧ k ≠ 0xFFE1 ∧ k ≠ 0xFF0D ∧ k ≠ 0xFFBE := by
  have h := pressed_keys_bound keymap k hk
  exact ⟨h, by omega, by omega, by omega⟩

/-- Witness for C9: with every keymap byte set to 1, keycode 0 is reported
pressed, and the theorem's bounds hold for it. -/
theorem x11_pressed_keys_are_raw_keycodes_witness :
    0 ∈ Linux.pressed_keys (fun _ => 1) ∧
    (0 < 256 ∧ 0 ≠ 0xFFE1 ∧ 0 ≠ 0xFF0D ∧ (0 : Nat) ≠ 0xFFBE) :=
  ⟨by decide, x11_pressed_keys_are_raw_keycodes (fun _ => 1) 0 (by decide)⟩

/-- Claim C10. On the Carbon/IOKit backend, a combination consisting only of
modifier keys makes `press` and `release` post zero native events: every
modifier is extracted into the flags, the remaining set is empty, and the
per-key loop runs no iterations. -/
theorem macos_modifier_only_press_posts_nothing (c : Finset Nat)
    (hall : ∀ x ∈ c, x ∈ MacOS.modifierKeys) :
    MacOS.send_key_events c true = ∅ ∧ MacOS.send_key_events c false = ∅ := by
  have hrest : (MacOS.extract_modifiers c).2 = ∅ := by
    rw [extract_modifiers_snd]
    rw [Finset.filter_eq_empty_iff]
    intro x hx
    simp only [Decidable.not_not]
    exact hall x hx
  constructor <;>
    · unfold MacOS.send_key_events
      rw [hrest]
      exact Finset.image_empty _

/-- Witness for C10 at the concrete modifier-only combination
{Shift_L, Control_R} = {0x38, 0x3E}. -/
theorem macos_modifier_only_press_posts_nothing_witness :
    MacOS.send_key_events ({56, 62} : Finset Nat) true = ∅ ∧
    MacOS.send_key_events ({56, 62} : Finset Nat) false = ∅ :=
  macos_modifier_only_press_posts_nothing {56, 62} (by decide)

end LibOS
